import Mathlib

/-!
Verification of the claw-link privacy pool core (commitment/nullifier scheme,
depth-20 incremental SHA-256 Merkle accumulator, proof builder and verifier).

Byte buffers are modelled as lists of naturals (`Word`); a 32-byte value is a
`Word` of length 32 and `Buffer.concat` is list append.  The SHA-256 primitive
is an external library call (`createHash("sha256")`), so it is treated as an
abstract function `H : Word → Word` threaded through every definition; all the
structural properties of the accumulator hold for every `H`, and concrete
instantiations of `H` are used for closed counterexamples and witnesses.
-/

namespace ClawCash

/-- Byte buffers (`Buffer` in the TypeScript sources) as lists of naturals. -/
abbrev Word := List Nat

/-- `ZERO_VALUE = Buffer.alloc(32, 0)`: 32 zero bytes, the absent-leaf value. -/
def ZERO : Word := List.replicate 32 0

variable (H : Word → Word)

/-- `hashPair(left, right) = sha256(Buffer.concat([left, right]))` from
payments.ts, with sha256 abstracted as `H`. -/
def hashPair (l r : Word) : Word := H (l ++ r)

/-- `zeroHashes()` from payments.ts, in indexed form: `zh[0] = H(ZERO ‖ ZERO)`,
`zh[i] = H(zh[i-1] ‖ zh[i-1])`. -/
def zeroHashes : Nat → Word
  | 0 => hashPair H ZERO ZERO
  | i + 1 => hashPair H (zeroHashes i) (zeroHashes i)

/-- The empty-slot value used at a given level of the tree:
`level === 0 ? ZERO_VALUE : zh[level - 1]` (payments.ts, both in the proof
builder and in the incremental insertion). -/
def zeroAt : Nat → Word
  | 0 => ZERO
  | l + 1 => zeroHashes H l

/-- The sibling index at one layer: `pathIndex % 2 === 0 ? pathIndex + 1 :
pathIndex - 1` (payments.ts computeMerkleProof). -/
def siblingOf (i : Nat) : Nat := if i % 2 = 0 then i + 1 else i - 1

/-- The layer maps built inside payments.ts `computeMerkleProof`, read
functionally: `layerAt L level` is the `currentLayer` map after `level`
rounds of the layer construction.  Layer 0 maps `i ↦ leaves[i]` for
`i < leaves.length`; layer `l+1` maps `p` to the hash of its two children,
absent children defaulting to `ZERO` at level 0 and `zh[level-1]` above,
and `p` is present exactly when one of its children is. -/
def layerAt (L : List Word) : Nat → Nat → Option Word
  | 0, p => if p < L.length then some (L.getD p ZERO) else none
  | l + 1, p =>
    if (layerAt L l (2 * p)).isSome || (layerAt L l (2 * p + 1)).isSome then
      some (hashPair H ((layerAt L l (2 * p)).getD (zeroAt H l))
        ((layerAt L l (2 * p + 1)).getD (zeroAt H l)))
    else none

/-- The proof-collection loop of payments.ts `computeMerkleProof`: starting at
layer `l` with `k` layers to go and current path index `pathIdx`, push the
sibling hash (from the current layer, defaulting to the empty-slot value) and
move up with `pathIdx / 2`. -/
def proofAux (L : List Word) : Nat → Nat → Nat → List Word
  | _, 0, _ => []
  | l, k + 1, pathIdx =>
    (layerAt H L l (siblingOf pathIdx)).getD (zeroAt H l) ::
      proofAux L (l + 1) k (pathIdx / 2)

/-- `computeMerkleProof(leaves, targetIndex)` from payments.ts: the 20-element
sibling path for the leaf at `targetIndex`, rebuilt from the full ordered leaf
history. -/
def computeMerkleProof (L : List Word) (targetIndex : Nat) : List Word :=
  proofAux H L 0 20 targetIndex

/-- The per-level body of the incremental insertion in payments.ts
`computeIncrementalRoot` (and of the accumulator's `insert` in spec §4.2):
at level `l` with `k` levels to go, if the index is even store the running
hash into `filledSubtrees[l]` and hash with the empty-slot value, otherwise
hash `filledSubtrees[l]` with the running hash; then halve the index. -/
def insertAux : Nat → Nat → List Word → Word → Nat → List Word × Word
  | _, 0, fs, cur, _ => (fs, cur)
  | l, k + 1, fs, cur, idx =>
    if idx % 2 = 0 then
      insertAux (l + 1) k (fs.set l cur) (hashPair H cur (zeroAt H l)) (idx / 2)
    else
      insertAux (l + 1) k fs (hashPair H (fs.getD l ZERO) cur) (idx / 2)

/-- One full insertion of a leaf at index `leafIdx`: the 20-level loop of
payments.ts `computeIncrementalRoot`, returning the updated `filledSubtrees`
and the new root. -/
def insertLevels (fs : List Word) (leaf : Word) (leafIdx : Nat) : List Word × Word :=
  insertAux H 0 20 fs leaf leafIdx

/-- The initial `filledSubtrees` of payments.ts `computeIncrementalRoot`:
`fs[0] = ZERO`, `fs[i] = zh[i-1]` for `1 ≤ i ≤ 19`. -/
def fsInit : List Word := ZERO :: (List.range 19).map (zeroHashes H)

/-- The leaf loop of payments.ts `computeIncrementalRoot`: insert each leaf in
order, threading `filledSubtrees` and the current root. -/
def incrAux : List Word → Word → Nat → List Word → List Word × Word
  | fs, root, _, [] => (fs, root)
  | fs, _, i, x :: rest =>
    let r := insertLevels H fs x i
    incrAux r.1 r.2 (i + 1) rest

/-- `computeIncrementalRoot(leaves)` from payments.ts: the root after inserting
all leaves one at a time with the incremental algorithm, starting from the
zero root `zh[19]`. -/
def computeIncrementalRoot (leaves : List Word) : Word :=
  (incrAux H (fsInit H) (zeroHashes H 19) 0 leaves).2

/-- The recomputation loop of the §4.4 proof verifier: fold the sibling path
over the running hash, hashing on the right at even indices and on the left at
odd ones, halving the index each level. -/
def verifyAux : Word → Nat → List Word → Word
  | cur, _, [] => cur
  | cur, idx, p :: ps =>
    verifyAux (if idx % 2 = 0 then hashPair H cur p else hashPair H p cur) (idx / 2) ps

/-- `verify(leaf, leafIndex, proof, root)` from spec §4.4: recompute the root
from the leaf and the sibling path and compare with `root`. -/
def verify (leaf : Word) (leafIndex : Nat) (proof : List Word) (root : Word) : Bool :=
  decide (verifyAux H leaf leafIndex proof = root)

/-- Reference semantics: the root of the subtree of height `l` whose leaf range
is `[idx * 2^l, (idx+1) * 2^l)`, with absent leaves read as `ZERO`.  This is
the mathematical tree both algorithms compute over. -/
def subtreeRoot (L : List Word) : Nat → Nat → Word
  | 0, idx => L.getD idx ZERO
  | l + 1, idx => hashPair H (subtreeRoot L l (2 * idx)) (subtreeRoot L l (2 * idx + 1))

/-- The from-scratch rebuild root: run the layer construction of payments.ts
`computeMerkleProof` for all 20 levels and read the root entry (defaulting to
the empty-tree root for an empty pool). -/
def rebuildRoot (L : List Word) : Word := (layerAt H L 20 0).getD (zeroAt H 20)

/-- The simplified `computeMerkleProof(leafIndex, commitment)` of
e2e-devnet-full.ts: pushes `ZERO` at level 0 and `zh[i-1]` above, ignoring
both arguments. -/
def computeMerkleProofFull (leafIndex : Nat) (commitment : Word) : List Word :=
  (List.range 20).map (fun i => if i = 0 then ZERO else zeroHashes H (i - 1))

/-- A note: secret, nullifier preimage, and the derived commitment and
nullifier hash (payments.ts / e2e-devnet-full.ts). -/
structure Note where
  secret : Word
  nullifierPreimage : Word
  commitment : Word
  nullifierHash : Word
deriving DecidableEq

/-- `generateNote()` from payments.ts with the two 32-byte random draws taken
as inputs: `commitment = sha256(secret ‖ nullifierPreimage)`,
`nullifierHash = sha256(nullifierPreimage)`. -/
def generateNote (secret nullifierPreimage : Word) : Note :=
  ⟨secret, nullifierPreimage, H (secret ++ nullifierPreimage), H nullifierPreimage⟩

/-- `generateCashNote()` from e2e-devnet-full.ts with the two `randomBytes(32)`
draws taken as inputs. -/
def generateCashNote (secret nullifierPreimage : Word) : Note :=
  ⟨secret, nullifierPreimage, H (secret ++ nullifierPreimage), H nullifierPreimage⟩

/-- The error kinds of the core operation contract (spec §6/§7). -/
inductive PoolErr
  | PoolUnknown
  | PoolFull
  | LeafOutOfRange
  | InvalidProof
  | NullifierSpent
deriving DecidableEq

/-- Modelled from the spec: per-pool state (spec §3 Pool, CommitmentLeaf
history, NullifierRecord set and the external vault balance, folded into one
record).  The on-chain program that owns this state is not part of the
repository snapshot; only its tests and client scripts are. -/
structure PoolState where
  poolId : Nat
  denomination : Nat
  nextIndex : Nat
  filledSubtrees : List Word
  currentRoot : Word
  leaves : List Word
  spentNullifiers : List Word
  vaultBalance : Nat
deriving DecidableEq

/-- Modelled from the spec: `initPool(poolId, denomination)` (spec §4.5)
creates a pool with `nextIndex = 0` and `currentRoot = zeroHashes[19]`. -/
def initPool (poolId denomination : Nat) : PoolState :=
  ⟨poolId, denomination, 0, fsInit H, zeroHashes H 19, [], [], 0⟩

/-- Modelled from the spec: the accumulator's `insert` (spec §4.2), which
fails with `PoolFull` when `nextIndex == 2^20` and otherwise runs the 20-level
incremental update and appends the commitment to the leaf history. -/
def insertPool (p : PoolState) (c : Word) : Except PoolErr PoolState :=
  if p.nextIndex = 2 ^ 20 then .error .PoolFull
  else
    let r := insertLevels H p.filledSubtrees c p.nextIndex
    .ok { p with nextIndex := p.nextIndex + 1, filledSubtrees := r.1,
                 currentRoot := r.2, leaves := p.leaves ++ [c] }

/-- Modelled from the spec: `deposit(poolId, commitment)` (spec §4.5), which
propagates `PoolFull` from `insert`, credits the vault by the denomination and
returns the assigned leaf index. -/
def deposit (p : PoolState) (c : Word) : PoolState × Except PoolErr Nat :=
  match insertPool H p c with
  | .error e => (p, .error e)
  | .ok p' => ({ p' with vaultBalance := p'.vaultBalance + p.denomination }, .ok p.nextIndex)

/-- Modelled from the spec: `withdraw` (spec §4.5 steps 1-4, with the §7
`LeafOutOfRange` boundary check): recompute the commitment and nullifier hash,
check the nullifier-hash binding, the index range, the membership proof and the
nullifier set, then atomically record the nullifier and debit the vault. -/
def withdraw (p : PoolState) (secret nullifierPreimage nullifierHash : Word)
    (leafIndex : Nat) (proof : List Word) (recipient : Nat) : PoolState × Option PoolErr :=
  if H nullifierPreimage = nullifierHash then
    if leafIndex < p.nextIndex then
      if verify H (hashPair H secret nullifierPreimage) leafIndex proof p.currentRoot then
        if nullifierHash ∈ p.spentNullifiers then (p, some .NullifierSpent)
        else ({ p with spentNullifiers := nullifierHash :: p.spentNullifiers,
                       vaultBalance := p.vaultBalance - p.denomination }, none)
      else (p, some .InvalidProof)
    else (p, some .LeafOutOfRange)
  else (p, some .InvalidProof)

/-- Modelled from the spec: `withdraw` with step 1's recomputed commitment
taken directly as an input instead of being derived from the secret; used to
state that the secret enters withdrawal only through
`commitment' = H(secret ‖ nullifierPreimage)`. -/
def withdrawWithCommitment (p : PoolState) (commitment nullifierPreimage nullifierHash : Word)
    (leafIndex : Nat) (proof : List Word) (recipient : Nat) : PoolState × Option PoolErr :=
  if H nullifierPreimage = nullifierHash then
    if leafIndex < p.nextIndex then
      if verify H commitment leafIndex proof p.currentRoot then
        if nullifierHash ∈ p.spentNullifiers then (p, some .NullifierSpent)
        else ({ p with spentNullifiers := nullifierHash :: p.spentNullifiers,
                       vaultBalance := p.vaultBalance - p.denomination }, none)
      else (p, some .InvalidProof)
    else (p, some .LeafOutOfRange)
  else (p, some .InvalidProof)

/-- Fold a sequence of deposits over a pool, keeping only the state. -/
def depositAll (p : PoolState) (cs : List Word) : PoolState :=
  cs.foldl (fun q c => (deposit H q c).1) p

/-- The pool state reached from `initPool` by depositing the commitments `cs`
in order (closed form used to relate the spec-level state machine to the
payments.ts incremental computation). -/
def mkPool (poolId denomination : Nat) (cs : List Word) : PoolState where
  poolId := poolId
  denomination := denomination
  nextIndex := cs.length
  filledSubtrees := (incrAux H (fsInit H) (zeroHashes H 19) 0 cs).1
  currentRoot := (incrAux H (fsInit H) (zeroHashes H 19) 0 cs).2
  leaves := cs
  spentNullifiers := []
  vaultBalance := denomination * cs.length

/-- A concrete stand-in hash used for closed counterexamples and witnesses:
the sum of the bytes plus the length, as a one-element word. -/
def sumLenHash : Word → Word := fun l => [l.foldl (· + ·) 0 + l.length]

/-! ### Basic lemmas about the zero values and list access -/

theorem zeroAt_succ (l : Nat) :
    zeroAt H (l + 1) = hashPair H (zeroAt H l) (zeroAt H l) := by
  cases l with
  | zero => rfl
  | succ m => rfl

theorem getD_take {α : Type} (L : List α) (n k : Nat) (d : α) (h : k < n) :
    (L.take n).getD k d = L.getD k d := by
  simp [List.getD_eq_getElem?_getD, List.getElem?_take, h]

theorem getD_set {α : Type} (fs : List α) (i j : Nat) (x d : α) (hi : i < fs.length) :
    (fs.set i x).getD j d = if i = j then x else fs.getD j d := by
  by_cases hij : i = j
  · subst hij
    simp [List.getD_eq_getElem?_getD, List.getElem?_set, hi]
  · simp [List.getD_eq_getElem?_getD, List.getElem?_set, hij]

theorem getD_of_length_le {α : Type} (L : List α) (k : Nat) (d : α) (h : L.length ≤ k) :
    L.getD k d = d := by
  simp [List.getD_eq_getElem?_getD, List.getElem?_eq_none h]

/-! ### The reference subtree semantics -/

theorem subtreeRoot_congr (L₁ L₂ : List Word) : ∀ (l idx : Nat),
    (∀ k, idx * 2 ^ l ≤ k → k < (idx + 1) * 2 ^ l → L₁.getD k ZERO = L₂.getD k ZERO) →
    subtreeRoot H L₁ l idx = subtreeRoot H L₂ l idx := by
  intro l
  induction l with
  | zero =>
    intro idx h
    simpa [subtreeRoot] using h idx (by simp) (by simp)
  | succ m ih =>
    intro idx h
    have e1 : idx * 2 ^ (m + 1) = 2 * idx * 2 ^ m := by ring
    have e2 : (idx + 1) * 2 ^ (m + 1) = (2 * idx + 1 + 1) * 2 ^ m := by ring
    have hm : (2 * idx + 1) * 2 ^ m ≤ (2 * idx + 1 + 1) * 2 ^ m :=
      Nat.mul_le_mul_right _ (by omega)
    rw [subtreeRoot, subtreeRoot]
    congr 1
    · exact ih (2 * idx) (fun k hk1 hk2 => h k (by omega) (by omega))
    · refine ih (2 * idx + 1) (fun k hk1 hk2 => h k ?_ ?_)
      · have : 2 * idx * 2 ^ m ≤ (2 * idx + 1) * 2 ^ m :=
          Nat.mul_le_mul_right _ (by omega)
        omega
      · omega

theorem subtreeRoot_empty (L : List Word) : ∀ (l idx : Nat), L.length ≤ idx * 2 ^ l →
    subtreeRoot H L l idx = zeroAt H l := by
  intro l
  induction l with
  | zero =>
    intro idx h
    simp only [subtreeRoot, zeroAt]
    exact getD_of_length_le L idx ZERO (by simpa using h)
  | succ m ih =>
    intro idx h
    have e1 : idx * 2 ^ (m + 1) = 2 * idx * 2 ^ m := by ring
    have hm : 2 * idx * 2 ^ m ≤ (2 * idx + 1) * 2 ^ m :=
      Nat.mul_le_mul_right _ (by omega)
    rw [subtreeRoot, zeroAt_succ]
    congr 1
    · exact ih (2 * idx) (by omega)
    · exact ih (2 * idx + 1) (by omega)

/-- Restricting a leaf list to a prefix that fully contains a subtree's leaf
range does not change the subtree's root. -/
theorem subtreeRoot_take (L : List Word) (l idx n : Nat) (h : (idx + 1) * 2 ^ l ≤ n) :
    subtreeRoot H (L.take n) l idx = subtreeRoot H L l idx := by
  refine subtreeRoot_congr H (L.take n) L l idx (fun k hk1 hk2 => ?_)
  exact getD_take L n k ZERO (by omega)

/-! ### Correctness of the layer construction -/

theorem layerAt_getD (L : List Word) : ∀ (l p : Nat),
    (layerAt H L l p).getD (zeroAt H l) = subtreeRoot H L l p := by
  intro l
  induction l with
  | zero =>
    intro p
    by_cases hp : p < L.length
    · simp [layerAt, hp, subtreeRoot]
    · simp only [layerAt, if_neg hp, Option.getD_none, subtreeRoot, zeroAt]
      exact (getD_of_length_le L p ZERO (by omega)).symm
  | succ m ih =>
    intro p
    by_cases hc : ((layerAt H L m (2 * p)).isSome || (layerAt H L m (2 * p + 1)).isSome) = true
    · simp only [layerAt, if_pos hc, Option.getD_some, subtreeRoot]
      rw [ih, ih]
    · have h1 : layerAt H L m (2 * p) = none := by
        cases hx : layerAt H L m (2 * p) with
        | none => rfl
        | some v => exact absurd (by simp [hx]) hc
      have h2 : layerAt H L m (2 * p + 1) = none := by
        cases hx : layerAt H L m (2 * p + 1) with
        | none => rfl
        | some v => exact absurd (by simp [hx]) hc
      have s1 : subtreeRoot H L m (2 * p) = zeroAt H m := by
        rw [← ih (2 * p), h1, Option.getD_none]
      have s2 : subtreeRoot H L m (2 * p + 1) = zeroAt H m := by
        rw [← ih (2 * p + 1), h2, Option.getD_none]
      simp only [layerAt, if_neg hc, Option.getD_none, subtreeRoot, s1, s2, zeroAt_succ]

theorem layerAt_none (L : List Word) : ∀ (l p : Nat), L.length ≤ p * 2 ^ l →
    layerAt H L l p = none := by
  intro l
  induction l with
  | zero =>
    intro p h
    simp only [layerAt, if_neg (by omega : ¬ p < L.length)]
  | succ m ih =>
    intro p h
    have e1 : p * 2 ^ (m + 1) = 2 * p * 2 ^ m := by ring
    have hm : 2 * p * 2 ^ m ≤ (2 * p + 1) * 2 ^ m :=
      Nat.mul_le_mul_right _ (by omega)
    have h1 : layerAt H L m (2 * p) = none := ih (2 * p) (by omega)
    have h2 : layerAt H L m (2 * p + 1) = none := ih (2 * p + 1) (by omega)
    simp [layerAt, h1, h2]

/-! ### The verifier recomputes subtree roots along the path -/

theorem verifyAux_proofAux (L : List Word) : ∀ (k l idx : Nat),
    verifyAux H (subtreeRoot H L l idx) idx (proofAux H L l k idx) =
      subtreeRoot H L (l + k) (idx / 2 ^ k) := by
  intro k
  induction k with
  | zero =>
    intro l idx
    simp [proofAux, verifyAux]
  | succ m ih =>
    intro l idx
    have hdd : idx / 2 / 2 ^ m = idx / 2 ^ (m + 1) := by
      rw [Nat.div_div_eq_div_mul, ← pow_succ']
    rcases Nat.mod_two_eq_zero_or_one idx with he | ho
    · have hsib : siblingOf idx = idx + 1 := by simp [siblingOf, he]
      have hR : 2 * (idx / 2) + 1 = idx + 1 := by omega
      have hL : 2 * (idx / 2) = idx := by omega
      rw [proofAux, verifyAux, hsib, if_pos he, layerAt_getD]
      have hcur : hashPair H (subtreeRoot H L l idx) (subtreeRoot H L l (idx + 1)) =
          subtreeRoot H L (l + 1) (idx / 2) := by
        rw [subtreeRoot, hR, hL]
      rw [hcur, ih (l + 1) (idx / 2), hdd]
      congr 1
      omega
    · have hsib : siblingOf idx = idx - 1 := by simp [siblingOf, ho]
      have hR : 2 * (idx / 2) + 1 = idx := by omega
      have hL : 2 * (idx / 2) = idx - 1 := by omega
      rw [proofAux, verifyAux, hsib, if_neg (by omega : ¬ idx % 2 = 0), layerAt_getD]
      have hcur : hashPair H (subtreeRoot H L l (idx - 1)) (subtreeRoot H L l idx) =
          subtreeRoot H L (l + 1) (idx / 2) := by
        rw [subtreeRoot, hR, hL]
      rw [hcur, ih (l + 1) (idx / 2), hdd]
      congr 1
      omega

/-! ### Correctness of the incremental insertion -/

/-- The `filledSubtrees` invariant after `n` insertions: at every level whose
path digit is odd, the cached entry is the root of the completed left-sibling
subtree. -/
def FsInv (L : List Word) (n : Nat) (fs : List Word) : Prop :=
  ∀ j, j < 20 → (n / 2 ^ j) % 2 = 1 →
    fs.getD j ZERO = subtreeRoot H L j (n / 2 ^ j - 1)

theorem insertAux_spec (L : List Word) (n : Nat) (hn : n < L.length) :
    ∀ (k l : Nat) (fs : List Word) (cur : Word), l + k = 20 → fs.length = 20 →
    cur = subtreeRoot H (L.take (n + 1)) l (n / 2 ^ l) →
    (∀ j, l ≤ j → j < 20 → (n / 2 ^ j) % 2 = 1 →
      fs.getD j ZERO = subtreeRoot H L j (n / 2 ^ j - 1)) →
    (insertAux H l k fs cur (n / 2 ^ l)).1.length = 20 ∧
    (insertAux H l k fs cur (n / 2 ^ l)).2 = subtreeRoot H (L.take (n + 1)) 20 (n / 2 ^ 20) ∧
    (∀ j, l ≤ j → j < 20 → ((n + 1) / 2 ^ j) % 2 = 1 →
      (insertAux H l k fs cur (n / 2 ^ l)).1.getD j ZERO =
        subtreeRoot H L j ((n + 1) / 2 ^ j - 1)) ∧
    (∀ j, j < l →
      (insertAux H l k fs cur (n / 2 ^ l)).1.getD j ZERO = fs.getD j ZERO) := by
  intro k
  induction k with
  | zero =>
    intro l fs cur hlk hfs hcur hinv
    have hl : l = 20 := by omega
    subst hl
    exact ⟨hfs, by simpa using hcur, fun j hj1 hj2 => by omega, fun j hj => rfl⟩
  | succ m ih =>
    intro l fs cur hlk hfs hcur hinv
    have hl20 : l < 20 := by omega
    have hdd : n / 2 ^ l / 2 = n / 2 ^ (l + 1) := by
      rw [Nat.div_div_eq_div_mul, ← pow_succ]
    have hdm := Nat.div_add_mod n (2 ^ l)
    have hml : n % 2 ^ l < 2 ^ l := Nat.mod_lt _ (Nat.pos_pow_of_pos l (by omega))
    rcases Nat.mod_two_eq_zero_or_one (n / 2 ^ l) with he | ho
    · -- even: store cur into fs[l], hash with the empty-slot value
      have hstep : insertAux H l (m + 1) fs cur (n / 2 ^ l) =
          insertAux H (l + 1) m (fs.set l cur) (hashPair H cur (zeroAt H l))
            (n / 2 ^ l / 2) := by
        rw [insertAux, if_pos he]
      have h2q : 2 * (n / 2 ^ (l + 1)) = n / 2 ^ l := by omega
      have hrange : n + 1 ≤ (n / 2 ^ l + 1) * 2 ^ l := by
        have h1 : (n / 2 ^ l + 1) * 2 ^ l = 2 ^ l * (n / 2 ^ l) + 2 ^ l := by ring
        omega
      have hcur1 : hashPair H cur (zeroAt H l) =
          subtreeRoot H (L.take (n + 1)) (l + 1) (n / 2 ^ (l + 1)) := by
        rw [subtreeRoot, h2q, ← hcur]
        congr 1
        refine (subtreeRoot_empty H (L.take (n + 1)) l (n / 2 ^ l + 1) ?_).symm
        calc (L.take (n + 1)).length ≤ n + 1 := by simp
          _ ≤ (n / 2 ^ l + 1) * 2 ^ l := hrange
      have hinv1 : ∀ j, l + 1 ≤ j → j < 20 → (n / 2 ^ j) % 2 = 1 →
          (fs.set l cur).getD j ZERO = subtreeRoot H L j (n / 2 ^ j - 1) := by
        intro j hj1 hj2 hj3
        rw [getD_set fs l j cur ZERO (by omega)]
        rw [if_neg (by omega)]
        exact hinv j (by omega) hj2 hj3
      obtain ⟨c1, c2, c3, c4⟩ := ih (l + 1) (fs.set l cur) (hashPair H cur (zeroAt H l))
        (by omega) (by simp [hfs]) hcur1 hinv1
      rw [hstep, hdd]
      refine ⟨c1, c2, ?_, ?_⟩
      · intro j hj1 hj2 hj3
        rcases Nat.lt_or_ge l j with hlj | hlj
        · exact c3 j (by omega) hj2 hj3
        · have hjl : j = l := by omega
          subst hjl
          -- carry case: (n+1)/2^j = n/2^j + 1 and 2^j divides n+1
          by_cases hd : 2 ^ j ∣ n + 1
          · have hsd : (n + 1) / 2 ^ j = n / 2 ^ j + 1 := by
              rw [Nat.succ_div, if_pos hd]
            have hmul : (n / 2 ^ j + 1) * 2 ^ j = n + 1 := by
              have h5 := Nat.div_mul_cancel hd
              rw [hsd] at h5
              omega
            rw [c4 j (by omega), getD_set fs j j cur ZERO (by omega), if_pos rfl, hsd]
            simp only [Nat.add_sub_cancel]
            rw [hcur]
            exact subtreeRoot_take H L j (n / 2 ^ j) (n + 1) (by omega)
          · rw [Nat.succ_div, if_neg hd] at hj3
            omega
      · intro j hj
        rw [c4 j (by omega), getD_set fs l j cur ZERO (by omega), if_neg (by omega)]
    · -- odd: hash the cached left sibling with cur
      have hstep : insertAux H l (m + 1) fs cur (n / 2 ^ l) =
          insertAux H (l + 1) m fs (hashPair H (fs.getD l ZERO) cur)
            (n / 2 ^ l / 2) := by
        rw [insertAux, if_neg (by omega)]
      have h2q : 2 * (n / 2 ^ (l + 1)) + 1 = n / 2 ^ l := by omega
      have h2q' : 2 * (n / 2 ^ (l + 1)) = n / 2 ^ l - 1 := by omega
      have hfsl : fs.getD l ZERO = subtreeRoot H L l (n / 2 ^ l - 1) :=
        hinv l (le_refl l) hl20 ho
      have hq2l : (n / 2 ^ l) * 2 ^ l ≤ n := by
        have h1 : (n / 2 ^ l) * 2 ^ l = 2 ^ l * (n / 2 ^ l) := by ring
        omega
      have hfsl' : fs.getD l ZERO = subtreeRoot H (L.take (n + 1)) l (n / 2 ^ l - 1) := by
        rw [hfsl]
        refine (subtreeRoot_take H L l (n / 2 ^ l - 1) (n + 1) ?_).symm
        have h1 : (n / 2 ^ l - 1 + 1) * 2 ^ l ≤ (n / 2 ^ l) * 2 ^ l :=
          Nat.mul_le_mul_right _ (by omega)
        omega
      have hcur1 : hashPair H (fs.getD l ZERO) cur =
          subtreeRoot H (L.take (n + 1)) (l + 1) (n / 2 ^ (l + 1)) := by
        rw [subtreeRoot, h2q, h2q', ← hcur, ← hfsl']
      have hinv1 : ∀ j, l + 1 ≤ j → j < 20 → (n / 2 ^ j) % 2 = 1 →
          fs.getD j ZERO = subtreeRoot H L j (n / 2 ^ j - 1) := by
        intro j hj1 hj2 hj3
        exact hinv j (by omega) hj2 hj3
      obtain ⟨c1, c2, c3, c4⟩ := ih (l + 1) fs (hashPair H (fs.getD l ZERO) cur)
        (by omega) hfs hcur1 hinv1
      rw [hstep, hdd]
      refine ⟨c1, c2, ?_, ?_⟩
      · intro j hj1 hj2 hj3
        rcases Nat.lt_or_ge l j with hlj | hlj
        · exact c3 j (by omega) hj2 hj3
        · have hjl : j = l := by omega
          subst hjl
          by_cases hd : 2 ^ j ∣ n + 1
          · -- would make (n+1)/2^j even, contradicting hj3
            rw [Nat.succ_div, if_pos hd] at hj3
            omega
          · have hsd : (n + 1) / 2 ^ j = n / 2 ^ j := by
              rw [Nat.succ_div, if_neg hd]
              omega
            rw [c4 j (by omega), hsd, hfsl]
      · intro j hj
        exact c4 j (by omega)

theorem insertLevels_spec (L : List Word) (n : Nat) (fs : List Word)
    (hn : n < L.length) (hcap : L.length ≤ 2 ^ 20) (hfs : fs.length = 20)
    (hinv : FsInv H L n fs) :
    (insertLevels H fs (L.getD n ZERO) n).1.length = 20 ∧
    (insertLevels H fs (L.getD n ZERO) n).2 = subtreeRoot H (L.take (n + 1)) 20 0 ∧
    FsInv H L (n + 1) (insertLevels H fs (L.getD n ZERO) n).1 := by
  have hncap : n < 2 ^ 20 := lt_of_lt_of_le hn hcap
  have hcur : L.getD n ZERO = subtreeRoot H (L.take (n + 1)) 0 (n / 2 ^ 0) := by
    simp only [pow_zero, Nat.div_one, subtreeRoot]
    exact (getD_take L (n + 1) n ZERO (by omega)).symm
  have hinv0 : ∀ j, 0 ≤ j → j < 20 → (n / 2 ^ j) % 2 = 1 →
      fs.getD j ZERO = subtreeRoot H L j (n / 2 ^ j - 1) :=
    fun j _ hj2 hj3 => hinv j hj2 hj3
  obtain ⟨c1, c2, c3, c4⟩ :=
    insertAux_spec H L n hn 20 0 fs (L.getD n ZERO) (by omega) hfs hcur hinv0
  have hz : n / 2 ^ 0 = n := by simp
  have hz20 : n / 2 ^ 20 = 0 := Nat.div_eq_of_lt hncap
  rw [hz] at c1 c2 c3
  rw [hz20] at c2
  exact ⟨c1, c2, fun j hj2 hj3 => c3 j (by omega) hj2 hj3⟩

theorem incrAux_spec (L : List Word) (hcap : L.length ≤ 2 ^ 20) :
    ∀ (rest : List Word) (n : Nat) (fs : List Word) (root : Word),
    L.drop n = rest → fs.length = 20 → FsInv H L n fs →
    root = subtreeRoot H (L.take n) 20 0 →
    (incrAux H fs root n rest).2 = subtreeRoot H L 20 0 := by
  intro rest
  induction rest with
  | nil =>
    intro n fs root hdrop hfs hinv hroot
    have hlen : L.length ≤ n := by
      have h1 := congrArg List.length hdrop
      simp only [List.length_drop, List.length_nil] at h1
      omega
    rw [incrAux, hroot, List.take_of_length_le hlen]
  | cons x rest' ih =>
    intro n fs root hdrop hfs hinv hroot
    have hn : n < L.length := by
      have h1 := congrArg List.length hdrop
      simp only [List.length_drop, List.length_cons] at h1
      omega
    have hx : L.getD n ZERO = x := by
      have h1 : (L.drop n)[0]? = L[n + 0]? := List.getElem?_drop L n 0
      rw [hdrop] at h1
      simp only [List.getElem?_cons_zero, Nat.add_zero] at h1
      simp [List.getD_eq_getElem?_getD, ← h1]
    obtain ⟨c1, c2, c3⟩ := insertLevels_spec H L n fs hn hcap hfs hinv
    rw [hx] at c1 c2 c3
    have hdrop' : L.drop (n + 1) = rest' := by
      rw [← List.tail_drop, hdrop]
      rfl
    show (incrAux H (insertLevels H fs x n).1 (insertLevels H fs x n).2 (n + 1) rest').2 =
      subtreeRoot H L 20 0
    exact ih (n + 1) (insertLevels H fs x n).1 (insertLevels H fs x n).2 hdrop' c1 c3 c2

theorem fsInit_length : (fsInit H).length = 20 := by
  simp [fsInit]

theorem computeIncrementalRoot_eq_subtreeRoot (L : List Word) (hcap : L.length ≤ 2 ^ 20) :
    computeIncrementalRoot H L = subtreeRoot H L 20 0 := by
  unfold computeIncrementalRoot
  refine incrAux_spec H L hcap L 0 (fsInit H) (zeroHashes H 19) (by simp)
    (fsInit_length H) ?_ ?_
  · intro j hj2 hj3
    simp only [Nat.zero_div, Nat.zero_mod] at hj3
    omega
  · rw [List.take_zero, subtreeRoot_empty H [] 20 0 (by simp)]
    rfl

/-- The builder/verifier roundtrip over the subtree semantics: the path
produced by `computeMerkleProof` recomputes the full root from the leaf. -/
theorem verifyAux_computeMerkleProof (L : List Word) (i : Nat)
    (hi : i < L.length) (hcap : L.length ≤ 2 ^ 20) :
    verifyAux H (L.getD i ZERO) i (computeMerkleProof H L i) = subtreeRoot H L 20 0 := by
  unfold computeMerkleProof
  have h0 : L.getD i ZERO = subtreeRoot H L 0 i := rfl
  rw [h0, verifyAux_proofAux]
  have hi20 : i / 2 ^ 20 = 0 := Nat.div_eq_of_lt (lt_of_lt_of_le hi hcap)
  rw [hi20]

theorem verify_roundtrip (L : List Word) (i : Nat)
    (hi : i < L.length) (hcap : L.length ≤ 2 ^ 20) :
    verify H (L.getD i ZERO) i (computeMerkleProof H L i) (computeIncrementalRoot H L) = true := by
  unfold verify
  rw [decide_eq_true_eq, verifyAux_computeMerkleProof H L i hi hcap,
    computeIncrementalRoot_eq_subtreeRoot H L hcap]

/-! ### The all-empty sibling path and the simplified devnet builder -/

theorem proofAux_zero (L : List Word) : ∀ (k l : Nat), L.length ≤ 2 ^ l →
    proofAux H L l k 0 = (List.range k).map (fun j => zeroAt H (l + j)) := by
  intro k
  induction k with
  | zero =>
    intro l h
    simp [proofAux]
  | succ m ih =>
    intro l h
    have hsib : siblingOf 0 = 1 := rfl
    have hnone : layerAt H L l 1 = none := layerAt_none H L l 1 (by simpa using h)
    have h2 : L.length ≤ 2 ^ (l + 1) :=
      le_trans h (Nat.pow_le_pow_right (by omega) (by omega))
    rw [proofAux, hsib, hnone, Option.getD_none, Nat.zero_div, ih (l + 1) h2,
      List.range_succ_eq_map, List.map_cons, List.map_map]
    congr 1
    refine List.map_congr_left (fun a ha => ?_)
    show zeroAt H (l + 1 + a) = zeroAt H (l + Nat.succ a)
    exact congrArg (zeroAt H) (by omega)

theorem computeMerkleProofFull_eq_map (i : Nat) (c : Word) :
    computeMerkleProofFull H i c = (List.range 20).map (zeroAt H) := by
  unfold computeMerkleProofFull
  refine List.map_congr_left (fun a ha => ?_)
  cases a with
  | zero => rfl
  | succ b => rfl

theorem computeMerkleProof_le_one (L : List Word) (hL : L.length ≤ 1) :
    computeMerkleProof H L 0 = (List.range 20).map (zeroAt H) := by
  unfold computeMerkleProof
  rw [proofAux_zero H L 20 0 (by simpa using hL)]
  refine List.map_congr_left (fun a ha => ?_)
  exact congrArg (zeroAt H) (by omega)

theorem computeMerkleProof_two_zero :
    computeMerkleProof H [ZERO, ZERO] 0 = (List.range 20).map (zeroAt H) := by
  unfold computeMerkleProof
  show proofAux H [ZERO, ZERO] 0 (19 + 1) 0 = _
  rw [proofAux]
  have hsib : siblingOf 0 = 1 := rfl
  have hlayer : layerAt H [ZERO, ZERO] 0 1 = some ZERO := by
    simp [layerAt]
  rw [hsib, hlayer, Option.getD_some, Nat.zero_div,
    proofAux_zero H [ZERO, ZERO] 19 1 (by simp)]
  rw [show (20 : Nat) = 19 + 1 from rfl, List.range_succ_eq_map, List.map_cons,
    List.map_map]
  congr 1

theorem range20_map_zeroAt :
    (List.range 20).map (zeroAt H) = ZERO :: (List.range 19).map (zeroHashes H) := by
  rw [show (20 : Nat) = 19 + 1 from rfl, List.range_succ_eq_map, List.map_cons,
    List.map_map]
  congr 1

/-! ### Concrete computations with the stand-in hash -/

theorem sumLenHash_pair (x z : Nat) : hashPair sumLenHash [x] [z] = [x + z + 2] := by
  simp [hashPair, sumLenHash]

theorem zeroHashes_sumLen_exists : ∀ j, ∃ z, zeroHashes sumLenHash j = [z] := by
  intro j
  induction j with
  | zero => exact ⟨64, by decide⟩
  | succ m ih =>
    obtain ⟨z, hz⟩ := ih
    refine ⟨z + z + 2, ?_⟩
    rw [zeroHashes, hz, sumLenHash_pair]

/-- With the stand-in hash, the root over the single leaf `[1]` and the root
over the two leaves `[1], [2]` stay exactly 29 apart at every level, so the two
roots differ at the top. -/
theorem subtree_diff_sumLen : ∀ l, 1 ≤ l →
    ∃ x y, subtreeRoot sumLenHash [[1]] l 0 = [x] ∧
      subtreeRoot sumLenHash [[1], [2]] l 0 = [y] ∧ x = y + 29 := by
  intro l hl
  induction l, hl using Nat.le_induction with
  | base =>
    refine ⟨34, 5, by decide, by decide, by omega⟩
  | succ m hm ih =>
    obtain ⟨x, y, hx, hy, hxy⟩ := ih
    obtain ⟨z, hz⟩ : ∃ z, zeroAt sumLenHash m = [z] := by
      cases m with
      | zero => omega
      | succ k => exact zeroHashes_sumLen_exists k
    have hone : (1 : Nat) ≤ 2 ^ m := Nat.one_le_two_pow
    have htwo : (2 : Nat) ≤ 2 ^ m := by
      calc (2 : Nat) = 2 ^ 1 := rfl
        _ ≤ 2 ^ m := Nat.pow_le_pow_right (by omega) hm
    refine ⟨x + z + 2, y + z + 2, ?_, ?_, by omega⟩
    · rw [subtreeRoot]
      rw [show 2 * 0 = 0 from rfl, show 2 * 0 + 1 = 1 from rfl]
      rw [subtreeRoot_empty sumLenHash [[1]] m 1 (by simpa using hone), hz, hx,
        sumLenHash_pair]
    · rw [subtreeRoot]
      rw [show 2 * 0 = 0 from rfl, show 2 * 0 + 1 = 1 from rfl]
      rw [subtreeRoot_empty sumLenHash [[1], [2]] m 1 (by simpa using htwo), hz, hy,
        sumLenHash_pair]

/-! ### Relating the spec-level pool state machine to the incremental root -/

theorem incrAux_snoc : ∀ (xs fs : List Word) (root : Word) (i : Nat) (c : Word),
    incrAux H fs root i (xs ++ [c]) =
      ((insertLevels H (incrAux H fs root i xs).1 c (i + xs.length)).1,
        (insertLevels H (incrAux H fs root i xs).1 c (i + xs.length)).2) := by
  intro xs
  induction xs with
  | nil =>
    intro fs root i c
    rfl
  | cons x xs ih =>
    intro fs root i c
    show incrAux H (insertLevels H fs x i).1 (insertLevels H fs x i).2 (i + 1) (xs ++ [c]) =
      ((insertLevels H (incrAux H (insertLevels H fs x i).1 (insertLevels H fs x i).2
          (i + 1) xs).1 c (i + (x :: xs).length)).1,
        (insertLevels H (incrAux H (insertLevels H fs x i).1 (insertLevels H fs x i).2
          (i + 1) xs).1 c (i + (x :: xs).length)).2)
    rw [ih]
    have harith : i + 1 + xs.length = i + (x :: xs).length := by
      simp only [List.length_cons]
      omega
    rw [harith]

theorem insertPool_mkPool (pid d : Nat) (cs : List Word) (c : Word)
    (hcap : cs.length < 2 ^ 20) :
    insertPool H (mkPool H pid d cs) c =
      .ok { mkPool H pid d (cs ++ [c]) with vaultBalance := d * cs.length } := by
  unfold insertPool
  rw [if_neg (by simp only [mkPool]; omega)]
  simp only [mkPool, PoolState.mk.injEq, Except.ok.injEq]
  refine ⟨trivial, trivial, by simp, ?_, ?_, trivial, trivial, trivial⟩
  · rw [incrAux_snoc, Nat.zero_add]
  · rw [incrAux_snoc, Nat.zero_add]

theorem deposit_mkPool (pid d : Nat) (cs : List Word) (c : Word)
    (hcap : cs.length < 2 ^ 20) :
    deposit H (mkPool H pid d cs) c = (mkPool H pid d (cs ++ [c]), .ok cs.length) := by
  unfold deposit
  rw [insertPool_mkPool H pid d cs c hcap]
  simp only [mkPool, PoolState.mk.injEq, Prod.mk.injEq]
  refine ⟨⟨trivial, trivial, trivial, trivial, trivial, trivial, trivial, ?_⟩, trivial⟩
  simp [Nat.mul_succ]

theorem initPool_eq_mkPool (pid d : Nat) : initPool H pid d = mkPool H pid d [] := rfl

theorem depositAll_mkPool : ∀ (rest cs : List Word) (pid d : Nat),
    (cs ++ rest).length ≤ 2 ^ 20 →
    depositAll H (mkPool H pid d cs) rest = mkPool H pid d (cs ++ rest) := by
  intro rest
  induction rest with
  | nil =>
    intro cs pid d h
    simp [depositAll]
  | cons c rest' ih =>
    intro cs pid d h
    have hcap : cs.length < 2 ^ 20 := by
      simp only [List.length_append, List.length_cons] at h
      omega
    show List.foldl (fun q c => (deposit H q c).1) (mkPool H pid d cs) (c :: rest') = _
    rw [List.foldl_cons,
      show (deposit H (mkPool H pid d cs) c).1 = mkPool H pid d (cs ++ [c]) from by
        rw [deposit_mkPool H pid d cs c hcap]]
    have h' : ((cs ++ [c]) ++ rest').length ≤ 2 ^ 20 := by
      simp only [List.length_append, List.length_cons, List.length_nil] at h ⊢
      omega
    have := ih (cs ++ [c]) pid d h'
    rw [show depositAll H (mkPool H pid d (cs ++ [c])) rest' =
        List.foldl (fun q c => (deposit H q c).1) (mkPool H pid d (cs ++ [c])) rest'
      from rfl] at this
    rw [this]
    congr 1
    simp

theorem depositAll_initPool (pid d : Nat) (cs : List Word) (hcap : cs.length ≤ 2 ^ 20) :
    depositAll H (initPool H pid d) cs = mkPool H pid d cs := by
  rw [initPool_eq_mkPool, depositAll_mkPool H cs [] pid d (by simpa using hcap)]
  simp

theorem mkPool_currentRoot (pid d : Nat) (cs : List Word) :
    (mkPool H pid d cs).currentRoot = computeIncrementalRoot H cs := rfl

/-! ### The claims -/

/-- Claim C1: builder/verifier roundtrip.  For every leaf list with
`0 < n ≤ 2^20` and every `i < n`, running the §4.4 verify algorithm on
`leaves[i]`, `i`, `computeMerkleProof(leaves, i)` and
`computeIncrementalRoot(leaves)` returns true: the sibling path produced by
the proof builder recomputes exactly the root produced by the incremental
accumulator.  This holds for every hash function `H`. -/
theorem claim_C1_roundtrip (H : Word → Word) (L : List Word) (i : Nat)
    (hpos : 0 < L.length) (hcap : L.length ≤ 2 ^ 20) (hi : i < L.length) :
    verify H (L.getD i ZERO) i (computeMerkleProof H L i)
      (computeIncrementalRoot H L) = true :=
  verify_roundtrip H L i hi hcap

theorem claim_C1_roundtrip_witness :
    0 < ([[1], [2], [3]] : List Word).length ∧
    ([[1], [2], [3]] : List Word).length ≤ 2 ^ 20 ∧
    1 < ([[1], [2], [3]] : List Word).length ∧
    verify sumLenHash (([[1], [2], [3]] : List Word).getD 1 ZERO) 1
      (computeMerkleProof sumLenHash [[1], [2], [3]] 1)
      (computeIncrementalRoot sumLenHash [[1], [2], [3]]) = true :=
  ⟨by decide, by decide, by decide,
    claim_C1_roundtrip sumLenHash [[1], [2], [3]] 1 (by decide) (by decide) (by decide)⟩

/-- Claim C2: incremental-equals-rebuild.  For every sequence of at most
`2^20` commitments, the root produced by successive incremental insert steps
equals the root produced by rebuilding the whole depth-20 tree from scratch
layer by layer (the layer construction inside `computeMerkleProof`, with
absent positions read as `ZERO` at level 0 and `zeroHashes[level-1]` above). -/
theorem claim_C2_incremental_eq_rebuild (H : Word → Word) (L : List Word)
    (hcap : L.length ≤ 2 ^ 20) :
    computeIncrementalRoot H L = rebuildRoot H L := by
  rw [computeIncrementalRoot_eq_subtreeRoot H L hcap]
  exact (layerAt_getD H L 20 0).symm

theorem claim_C2_incremental_eq_rebuild_witness :
    ([[1], [2]] : List Word).length ≤ 2 ^ 20 ∧
    computeIncrementalRoot sumLenHash [[1], [2]] = rebuildRoot sumLenHash [[1], [2]] :=
  ⟨by decide, claim_C2_incremental_eq_rebuild sumLenHash [[1], [2]] (by decide)⟩

/-- Claim C3, counterexample.  The claim asserts that a proof built for leaf
`i` against the first `n` leaves verifies against the pool root after any
`m ≥ n` insertions.  This fails already at `n = 1`, `m = 2`, `i = 0` for the
concrete hash `sumLenHash`: the second insertion replaces the level-0 sibling
of leaf 0 (previously the empty-leaf value) by the second commitment, so the
stale path recomputes the old root, which differs from the current one. -/
theorem claim_C3_counterexample :
    verify sumLenHash [1] 0 (computeMerkleProof sumLenHash [[1]] 0)
      (computeIncrementalRoot sumLenHash [[1], [2]]) = false := by
  obtain ⟨x, y, hx, hy, hxy⟩ := subtree_diff_sumLen 20 (by omega)
  unfold verify
  rw [decide_eq_false_iff_not]
  intro hcontra
  have h1 := verifyAux_computeMerkleProof sumLenHash [[1]] 0 (by decide) (by decide)
  have hleaf : ([[1]] : List Word).getD 0 ZERO = [1] := rfl
  rw [hleaf] at h1
  have h2 := computeIncrementalRoot_eq_subtreeRoot sumLenHash [[1], [2]] (by decide)
  rw [h1, h2, hx, hy] at hcontra
  simp only [List.cons.injEq, and_true] at hcontra
  omega

/-- Claim C3, amended.  A sibling path built for leaf `i` against the first
`n` leaves recomputes the root of those `n` leaves, so it verifies against the
pool's current root after `m ≥ n` total insertions exactly when that current
root still equals the root after `n` insertions (in particular when `m = n`);
later appends generally change sibling hashes on the path and break the
proof. -/
theorem claim_C3_stability_amended (H : Word → Word) (L : List Word) (n i : Nat)
    (hi : i < n) (hn : n ≤ L.length) (hcap : L.length ≤ 2 ^ 20) :
    (verify H (L.getD i ZERO) i (computeMerkleProof H (L.take n) i)
      (computeIncrementalRoot H L) = true) ↔
    computeIncrementalRoot H L = computeIncrementalRoot H (L.take n) := by
  unfold verify
  rw [decide_eq_true_eq]
  have hleaf : L.getD i ZERO = (L.take n).getD i ZERO := (getD_take L n i ZERO hi).symm
  have htl : (L.take n).length ≤ 2 ^ 20 := by
    simp only [List.length_take]
    omega
  have hitl : i < (L.take n).length := by
    simp only [List.length_take]
    omega
  rw [hleaf, verifyAux_computeMerkleProof H (L.take n) i hitl htl,
    computeIncrementalRoot_eq_subtreeRoot H (L.take n) htl,
    computeIncrementalRoot_eq_subtreeRoot H L hcap]
  exact eq_comm

theorem claim_C3_stability_amended_witness :
    (0 < 1 ∧ 1 ≤ ([[1], [2]] : List Word).length ∧
      ([[1], [2]] : List Word).length ≤ 2 ^ 20) ∧
    ((verify sumLenHash (([[1], [2]] : List Word).getD 0 ZERO) 0
      (computeMerkleProof sumLenHash (([[1], [2]] : List Word).take 1) 0)
      (computeIncrementalRoot sumLenHash [[1], [2]]) = true) ↔
    computeIncrementalRoot sumLenHash [[1], [2]] =
      computeIncrementalRoot sumLenHash (([[1], [2]] : List Word).take 1)) :=
  ⟨⟨by decide, by decide, by decide⟩,
    claim_C3_stability_amended sumLenHash [[1], [2]] 1 0 (by decide) (by decide) (by decide)⟩

/-- Claim C4, counterexample.  The claim's opening universal — "for every pool
state, a withdraw whose nullifierHash is already recorded in the NullifierSet
fails with error NullifierSpent" — does not hold unconditionally: the spec's
§4.5 checks run in order, so a withdraw whose nullifier is recorded but whose
leaf index is out of range reports `LeafOutOfRange`, not `NullifierSpent`
(state still unchanged). -/
theorem claim_C4_counterexample :
    sumLenHash [2] ∈ ({ initPool sumLenHash 0 5 with
      spentNullifiers := [sumLenHash [2]] } : PoolState).spentNullifiers ∧
    withdraw sumLenHash
      { initPool sumLenHash 0 5 with spentNullifiers := [sumLenHash [2]] }
      [1] [2] (sumLenHash [2]) 0 [] 0 =
      ({ initPool sumLenHash 0 5 with spentNullifiers := [sumLenHash [2]] },
        some PoolErr.LeafOutOfRange) ∧
    some PoolErr.LeafOutOfRange ≠ some PoolErr.NullifierSpent :=
  ⟨by decide, rfl, by decide⟩

/-- Claim C4 (amended): spend-once / double-spend rejection.  An otherwise-valid
withdraw whose nullifier hash is already recorded fails with `NullifierSpent`
and leaves the state unchanged; and in the deposit-then-withdraw scenario the
first withdraw succeeds and releases the denomination from the vault, while an
identical second call fails `NullifierSpent`, changes nothing and releases no
further value.  (Spec-modelled: the on-chain withdraw is not part of the
repository snapshot; only its tests are.) -/
theorem claim_C4_spend_once (H : Word → Word) (pid d : Nat) (cs : List Word)
    (s pre : Word) (r r' : Nat) (hcap : cs.length + 1 ≤ 2 ^ 20) :
    (∀ (q : PoolState) (s₁ pre₁ nh₁ : Word) (i₁ : Nat) (pf₁ : List Word) (r₁ : Nat),
      H pre₁ = nh₁ → i₁ < q.nextIndex →
      verify H (hashPair H s₁ pre₁) i₁ pf₁ q.currentRoot = true →
      nh₁ ∈ q.spentNullifiers →
      withdraw H q s₁ pre₁ nh₁ i₁ pf₁ r₁ = (q, some PoolErr.NullifierSpent)) ∧
    (deposit H (depositAll H (initPool H pid d) cs) (H (s ++ pre))).2 =
      Except.ok cs.length ∧
    (withdraw H (deposit H (depositAll H (initPool H pid d) cs) (H (s ++ pre))).1
      s pre (H pre) cs.length
      (computeMerkleProof H (cs ++ [H (s ++ pre)]) cs.length) r).2 = none ∧
    withdraw H
      (withdraw H (deposit H (depositAll H (initPool H pid d) cs) (H (s ++ pre))).1
        s pre (H pre) cs.length
        (computeMerkleProof H (cs ++ [H (s ++ pre)]) cs.length) r).1
      s pre (H pre) cs.length
      (computeMerkleProof H (cs ++ [H (s ++ pre)]) cs.length) r' =
      ((withdraw H (deposit H (depositAll H (initPool H pid d) cs) (H (s ++ pre))).1
        s pre (H pre) cs.length
        (computeMerkleProof H (cs ++ [H (s ++ pre)]) cs.length) r).1,
        some PoolErr.NullifierSpent) ∧
    (withdraw H (deposit H (depositAll H (initPool H pid d) cs) (H (s ++ pre))).1
      s pre (H pre) cs.length
      (computeMerkleProof H (cs ++ [H (s ++ pre)]) cs.length) r).1.vaultBalance + d =
      (deposit H (depositAll H (initPool H pid d) cs) (H (s ++ pre))).1.vaultBalance := by
  have hgate : ∀ (q : PoolState) (s₁ pre₁ nh₁ : Word) (i₁ : Nat) (pf₁ : List Word)
      (r₁ : Nat), H pre₁ = nh₁ → i₁ < q.nextIndex →
      verify H (hashPair H s₁ pre₁) i₁ pf₁ q.currentRoot = true →
      nh₁ ∈ q.spentNullifiers →
      withdraw H q s₁ pre₁ nh₁ i₁ pf₁ r₁ = (q, some PoolErr.NullifierSpent) := by
    intro q s₁ pre₁ nh₁ i₁ pf₁ r₁ h1 h2 h3 h4
    unfold withdraw
    rw [if_pos h1, if_pos h2, if_pos h3, if_pos h4]
  have hcap' : cs.length < 2 ^ 20 := by omega
  have hd : depositAll H (initPool H pid d) cs = mkPool H pid d cs :=
    depositAll_initPool H pid d cs (by omega)
  have hdep : deposit H (mkPool H pid d cs) (H (s ++ pre)) =
      (mkPool H pid d (cs ++ [H (s ++ pre)]), Except.ok cs.length) :=
    deposit_mkPool H pid d cs (H (s ++ pre)) hcap'
  have hgetd : (cs ++ [H (s ++ pre)]).getD cs.length ZERO = H (s ++ pre) := by
    simp [List.getD_eq_getElem?_getD, List.getElem?_concat_length]
  have hv : verify H (H (s ++ pre)) cs.length
      (computeMerkleProof H (cs ++ [H (s ++ pre)]) cs.length)
      (computeIncrementalRoot H (cs ++ [H (s ++ pre)])) = true := by
    have h5 := verify_roundtrip H (cs ++ [H (s ++ pre)]) cs.length
      (by simp) (by simp only [List.length_append, List.length_cons, List.length_nil]; omega)
    rw [hgetd] at h5
    exact h5
  have hlt : cs.length < (mkPool H pid d (cs ++ [H (s ++ pre)])).nextIndex := by
    simp [mkPool]
  have hvv : verify H (hashPair H s pre) cs.length
      (computeMerkleProof H (cs ++ [H (s ++ pre)]) cs.length)
      (mkPool H pid d (cs ++ [H (s ++ pre)])).currentRoot = true := hv
  have hmem : ¬ H pre ∈ (mkPool H pid d (cs ++ [H (s ++ pre)])).spentNullifiers := by
    simp [mkPool]
  have hw1 : withdraw H (mkPool H pid d (cs ++ [H (s ++ pre)])) s pre (H pre) cs.length
      (computeMerkleProof H (cs ++ [H (s ++ pre)]) cs.length) r =
      ({ mkPool H pid d (cs ++ [H (s ++ pre)]) with
          spentNullifiers := [H pre],
          vaultBalance :=
            (mkPool H pid d (cs ++ [H (s ++ pre)])).vaultBalance - d }, none) := by
    unfold withdraw
    rw [if_pos rfl, if_pos hlt, if_pos hvv, if_neg hmem]
    rfl
  have hw2 : withdraw H ({ mkPool H pid d (cs ++ [H (s ++ pre)]) with
      spentNullifiers := [H pre],
      vaultBalance := (mkPool H pid d (cs ++ [H (s ++ pre)])).vaultBalance - d })
      s pre (H pre) cs.length
      (computeMerkleProof H (cs ++ [H (s ++ pre)]) cs.length) r' =
      ({ mkPool H pid d (cs ++ [H (s ++ pre)]) with
          spentNullifiers := [H pre],
          vaultBalance := (mkPool H pid d (cs ++ [H (s ++ pre)])).vaultBalance - d },
        some PoolErr.NullifierSpent) := by
    refine hgate _ s pre (H pre) cs.length _ r' rfl ?_ ?_ ?_
    · exact hlt
    · exact hv
    · simp
  refine ⟨hgate, ?_, ?_, ?_, ?_⟩
  · rw [hd, hdep]
  · rw [hd, hdep]
    show (withdraw H (mkPool H pid d (cs ++ [H (s ++ pre)])) s pre (H pre) cs.length
      (computeMerkleProof H (cs ++ [H (s ++ pre)]) cs.length) r).2 = none
    rw [hw1]
  · rw [hd, hdep]
    show withdraw H
        (withdraw H (mkPool H pid d (cs ++ [H (s ++ pre)])) s pre (H pre) cs.length
          (computeMerkleProof H (cs ++ [H (s ++ pre)]) cs.length) r).1
        s pre (H pre) cs.length
        (computeMerkleProof H (cs ++ [H (s ++ pre)]) cs.length) r' =
      ((withdraw H (mkPool H pid d (cs ++ [H (s ++ pre)])) s pre (H pre) cs.length
        (computeMerkleProof H (cs ++ [H (s ++ pre)]) cs.length) r).1,
        some PoolErr.NullifierSpent)
    rw [hw1]
    exact hw2
  · rw [hd, hdep]
    show (withdraw H (mkPool H pid d (cs ++ [H (s ++ pre)])) s pre (H pre) cs.length
      (computeMerkleProof H (cs ++ [H (s ++ pre)]) cs.length) r).1.vaultBalance + d =
      (mkPool H pid d (cs ++ [H (s ++ pre)])).vaultBalance
    rw [hw1]
    show (mkPool H pid d (cs ++ [H (s ++ pre)])).vaultBalance - d + d =
      (mkPool H pid d (cs ++ [H (s ++ pre)])).vaultBalance
    have hvval : (mkPool H pid d (cs ++ [H (s ++ pre)])).vaultBalance =
        d * cs.length + d := by
      simp [mkPool, Nat.mul_succ]
    rw [hvval]
    omega

theorem claim_C4_spend_once_witness :
    (0 : Nat) + 1 ≤ 2 ^ 20 ∧
    ((deposit sumLenHash (depositAll sumLenHash (initPool sumLenHash 0 5) [])
        (sumLenHash ([1] ++ [2]))).2 = Except.ok ([] : List Word).length ∧
      (withdraw sumLenHash
        (deposit sumLenHash (depositAll sumLenHash (initPool sumLenHash 0 5) [])
          (sumLenHash ([1] ++ [2]))).1 [1] [2] (sumLenHash [2]) ([] : List Word).length
        (computeMerkleProof sumLenHash ([] ++ [sumLenHash ([1] ++ [2])])
          ([] : List Word).length) 3).2 = none) :=
  ⟨by decide,
    ⟨(claim_C4_spend_once sumLenHash 0 5 [] [1] [2] 3 4 (by decide)).2.1,
      (claim_C4_spend_once sumLenHash 0 5 [] [1] [2] 3 4 (by decide)).2.2.1⟩⟩

/-- Claim C5: the secret is a blinding factor only.  Withdrawal is entirely
determined by the nullifier preimage plus the membership proof of the
commitment: `withdraw` factors through `withdrawWithCommitment`, which takes
the recomputed commitment `H(secret ‖ preimage)` as an input and never sees
the secret; consequently two secrets with the same recomputed commitment give
identical withdraw outcomes.  (Spec-modelled: the withdraw routine lives in
the on-chain program, which is not part of the repository snapshot.) -/
theorem claim_C5_secret_blinding (H : Word → Word) (p : PoolState)
    (s pre nh : Word) (i : Nat) (pf : List Word) (r : Nat) :
    withdraw H p s pre nh i pf r =
      withdrawWithCommitment H p (hashPair H s pre) pre nh i pf r ∧
    (∀ s₂, hashPair H s pre = hashPair H s₂ pre →
      withdraw H p s pre nh i pf r = withdraw H p s₂ pre nh i pf r) := by
  refine ⟨rfl, fun s₂ h => ?_⟩
  unfold withdraw
  rw [h]

theorem claim_C5_secret_blinding_witness :
    withdraw sumLenHash (initPool sumLenHash 0 5) [1] [2] (sumLenHash [2]) 0 [] 0 =
      withdrawWithCommitment sumLenHash (initPool sumLenHash 0 5)
        (hashPair sumLenHash [1] [2]) [2] (sumLenHash [2]) 0 [] 0 ∧
    withdraw sumLenHash (initPool sumLenHash 0 5) [1] [2] (sumLenHash [2]) 0 [] 0 =
      withdraw sumLenHash (initPool sumLenHash 0 5) [1] [2] (sumLenHash [2]) 0 [] 0 :=
  ⟨(claim_C5_secret_blinding sumLenHash (initPool sumLenHash 0 5)
      [1] [2] (sumLenHash [2]) 0 [] 0).1,
    (claim_C5_secret_blinding sumLenHash (initPool sumLenHash 0 5)
      [1] [2] (sumLenHash [2]) 0 [] 0).2 [1] rfl⟩

/-- Claim C6: capacity limit.  `insert` fails with `PoolFull` exactly when
`nextIndex` has reached `2^20`; `deposit` propagates the failure and changes
nothing; for `nextIndex < 2^20` insert succeeds, assigns the next index and
appends the commitment without deleting or overwriting any prior leaf.
(Spec-modelled: the on-chain insert is not part of the repository snapshot;
the test-side `computeIncrementalRoot` has no capacity check of its own.) -/
theorem claim_C6_capacity (H : Word → Word) (p : PoolState) (c : Word) :
    (insertPool H p c = .error .PoolFull ↔ p.nextIndex = 2 ^ 20) ∧
    (p.nextIndex = 2 ^ 20 → deposit H p c = (p, .error .PoolFull)) ∧
    (p.nextIndex < 2 ^ 20 → ∃ p', insertPool H p c = .ok p' ∧
      p'.nextIndex = p.nextIndex + 1 ∧ p'.leaves = p.leaves ++ [c] ∧
      ∀ j, j < p.leaves.length → p'.leaves.getD j ZERO = p.leaves.getD j ZERO) := by
  refine ⟨⟨?_, ?_⟩, ?_, ?_⟩
  · intro h
    by_cases hc : p.nextIndex = 2 ^ 20
    · exact hc
    · unfold insertPool at h
      rw [if_neg hc] at h
      exact absurd h (by simp)
  · intro h
    unfold insertPool
    rw [if_pos h]
  · intro h
    unfold deposit
    rw [show insertPool H p c = .error .PoolFull from by unfold insertPool; rw [if_pos h]]
  · intro h
    refine ⟨_, by unfold insertPool; rw [if_neg (by omega)], rfl, rfl, fun j hj => ?_⟩
    exact List.getD_append p.leaves [c] ZERO j hj

theorem claim_C6_capacity_witness :
    (insertPool sumLenHash { initPool sumLenHash 0 5 with nextIndex := 2 ^ 20 } [7] =
      .error .PoolFull) ∧
    (∃ p', insertPool sumLenHash (initPool sumLenHash 0 5) [7] = .ok p' ∧
      p'.nextIndex = (initPool sumLenHash 0 5).nextIndex + 1 ∧
      p'.leaves = (initPool sumLenHash 0 5).leaves ++ [[7]] ∧
      ∀ j, j < (initPool sumLenHash 0 5).leaves.length →
        p'.leaves.getD j ZERO = (initPool sumLenHash 0 5).leaves.getD j ZERO) :=
  ⟨(claim_C6_capacity sumLenHash
      { initPool sumLenHash 0 5 with nextIndex := 2 ^ 20 } [7]).1.mpr rfl,
    (claim_C6_capacity sumLenHash (initPool sumLenHash 0 5) [7]).2.2 (by decide)⟩

/-- Claim C7: empty-pool root.  A freshly initialized pool has `nextIndex = 0`
and `currentRoot = zeroHashes[19]`, where the zero hashes follow the stated
recurrence over the 32-zero-byte value; equivalently the incremental root of
the empty leaf list is `zeroHashes[19]`. -/
theorem claim_C7_empty_root (H : Word → Word) (pid d : Nat) :
    (initPool H pid d).nextIndex = 0 ∧
    (initPool H pid d).currentRoot = zeroHashes H 19 ∧
    computeIncrementalRoot H [] = zeroHashes H 19 ∧
    zeroHashes H 0 = hashPair H ZERO ZERO ∧
    (∀ i, zeroHashes H (i + 1) = hashPair H (zeroHashes H i) (zeroHashes H i)) ∧
    ZERO = List.replicate 32 0 :=
  ⟨rfl, rfl, rfl, rfl, fun i => rfl, rfl⟩

/-- Claim C8: note derivation.  For every pair of byte strings
`(secret, nullifierPreimage)`, the derived public values are exactly
`commitment = sha256(secret ‖ nullifierPreimage)` and
`nullifierHash = sha256(nullifierPreimage)`; the derivations are functions of
the two inputs alone (hence deterministic), and the payments.ts and
e2e-devnet-full.ts derivations agree. -/
theorem claim_C8_note_derivation (H : Word → Word) (s pre : Word) :
    (generateNote H s pre).commitment = H (s ++ pre) ∧
    (generateNote H s pre).nullifierHash = H pre ∧
    (generateNote H s pre).secret = s ∧
    (generateNote H s pre).nullifierPreimage = pre ∧
    generateNote H s pre = generateCashNote H s pre :=
  ⟨rfl, rfl, rfl, rfl, rfl⟩

/-- Claim C9: root purity.  The current root after a sequence of deposits is
a pure function of the ordered commitment sequence: it equals
`computeIncrementalRoot` of that sequence, and in particular two pools with
different pool ids and denominations receiving the same ordered commitments
end with identical roots.  (The deposit state machine is spec-modelled; the
root computation is the payments.ts incremental algorithm.) -/
theorem claim_C9_rootPurity (H : Word → Word) (pid d pid' d' : Nat)
    (cs : List Word) (hcap : cs.length ≤ 2 ^ 20) :
    (depositAll H (initPool H pid d) cs).currentRoot = computeIncrementalRoot H cs ∧
    (depositAll H (initPool H pid d) cs).currentRoot =
      (depositAll H (initPool H pid' d') cs).currentRoot := by
  rw [depositAll_initPool H pid d cs hcap, depositAll_initPool H pid' d' cs hcap]
  exact ⟨rfl, rfl⟩

theorem claim_C9_rootPurity_witness :
    ([[1], [2]] : List Word).length ≤ 2 ^ 20 ∧
    ((depositAll sumLenHash (initPool sumLenHash 0 5) [[1], [2]]).currentRoot =
      computeIncrementalRoot sumLenHash [[1], [2]] ∧
    (depositAll sumLenHash (initPool sumLenHash 0 5) [[1], [2]]).currentRoot =
      (depositAll sumLenHash (initPool sumLenHash 1 7) [[1], [2]]).currentRoot) :=
  ⟨by decide, claim_C9_rootPurity sumLenHash 0 5 1 7 [[1], [2]] (by decide)⟩

/-- Claim C10, counterexample.  The claim's "exactly when" fails: the
simplified e2e-devnet-full builder agrees with the general payments.ts builder
also on the two-leaf pool `[ZERO, ZERO]` at `targetIndex = 0`, because those
leaves coincide with the empty-slot values, even though the pool contains more
than one leaf. -/
theorem claim_C10_counterexample :
    computeMerkleProofFull sumLenHash 0 ZERO =
      computeMerkleProof sumLenHash [ZERO, ZERO] 0 ∧
    1 < ([ZERO, ZERO] : List Word).length := by
  constructor
  · rw [computeMerkleProofFull_eq_map, computeMerkleProof_two_zero]
  · decide

/-- Claim C10, amended.  The simplified proof builder of e2e-devnet-full.ts
ignores both of its arguments and always returns the constant 20-element path
`[ZERO, zeroHashes[0], …, zeroHashes[18]]`; it agrees with the general builder
`computeMerkleProof(leaves, targetIndex)` of payments.ts whenever
`targetIndex = 0` and the pool contains at most one leaf (agreement can also
occur for other leaf lists whose entries coincide with the empty-slot values,
so the agreement region is not exactly that set). -/
theorem claim_C10_simplified_builder (H : Word → Word) (i i' : Nat) (c c' : Word)
    (L : List Word) (hL : L.length ≤ 1) :
    computeMerkleProofFull H i c = ZERO :: (List.range 19).map (zeroHashes H) ∧
    computeMerkleProofFull H i c = computeMerkleProofFull H i' c' ∧
    computeMerkleProofFull H i c = computeMerkleProof H L 0 := by
  have h1 := computeMerkleProofFull_eq_map H i c
  refine ⟨?_, ?_, ?_⟩
  · rw [h1, range20_map_zeroAt]
  · rw [h1, computeMerkleProofFull_eq_map H i' c']
  · rw [h1, computeMerkleProof_le_one H L hL]

theorem claim_C10_simplified_builder_witness :
    ([] : List Word).length ≤ 1 ∧
    (computeMerkleProofFull sumLenHash 3 [9] =
      ZERO :: (List.range 19).map (zeroHashes sumLenHash) ∧
    computeMerkleProofFull sumLenHash 3 [9] = computeMerkleProofFull sumLenHash 0 [] ∧
    computeMerkleProofFull sumLenHash 3 [9] = computeMerkleProof sumLenHash [] 0) :=
  ⟨by decide, claim_C10_simplified_builder sumLenHash 3 0 [9] [] [] (by decide)⟩

end ClawCash
